import Mathlib

/-!
# Verification of the video-render-queue scheduler

Shallow embedding of the render-job scheduler implemented by the class
`VideoRenderQueue` (with its generic linked-list `Queue`) in the repository.

Modelling choices:
* The generic linked-list `Queue<T>` (head/tail pointers, O(1) enqueue at the
  tail and dequeue at the head) is modelled as a Lean `List`: `enqueue` appends
  at the tail (`++ [x]`), `dequeue` takes the head.  The node/pointer structure
  is memory layout only; the abstract FIFO content is what the scheduler uses.
* In the source, the queue and the `history` array hold references to the same
  mutable `RenderJob` objects.  We model the shared mutable heap by letting
  `history` be the authority: the FIFO queue holds indices into `history`
  (each job is pushed to `history` exactly once, at the index recorded in the
  queue), and every status mutation is performed on the `history` entry.
* `processNext` is an `async` method.  Its synchronous prefix — dequeue,
  skip cancelled jobs, mark the first live job `processing` — runs atomically
  up to the first `await sleep(...)`; this prefix is the function `drain`
  (implemented by `processLoop`).  The suspension during `sleep` is a scheduling
  point: the index of the job being rendered is carried in the continuation of
  `processNext`, modelled here by the field `activeJob`.  Completion of the
  sleep (setting the job `done`, recording `durationMs`, and re-entering
  `processNext`) is the transition `wake`, parameterised by the measured
  elapsed time `d` (`Date.now() - startTime` in the source).
* Timestamps (`Date.now()`) are external inputs, passed as `Nat` parameters.
-/

/-- `type EffectType` — the closed set of effect kinds. -/
inductive EffectType
  | color_grade
  | blur
  | trim
  | speed_change
  | transition
deriving DecidableEq, Repr

/-- `type Priority = "high" | "normal" | "low"`. -/
inductive JobPriority
  | high
  | normal
  | low
deriving DecidableEq, Repr

/-- `type JobStatus = "pending" | "processing" | "done" | "cancelled"`. -/
inductive JobStatus
  | pending
  | processing
  | done
  | cancelled
deriving DecidableEq, Repr

/-- `interface RenderJob` — one render job record.  `durationMs?` is the
optional field, `none` standing for `undefined`. -/
structure RenderJob where
  id : String
  segmentId : String
  effect : EffectType
  priority : JobPriority
  createdAt : Nat
  status : JobStatus
  durationMs : Option Nat
deriving DecidableEq, Repr

/-- `type CreateJobParams = Pick<RenderJob, "segmentId" | "effect" | "priority">`. -/
structure CreateJobParams where
  segmentId : String
  effect : EffectType
  priority : JobPriority
deriving DecidableEq, Repr

/-- `interface QueueStats` — the result of `getStats()`. -/
structure QueueStats where
  pending : Nat
  processing : Nat
  done : Nat
  cancelled : Nat
  averageRenderTimeMs : Nat
deriving DecidableEq, Repr

/-- The scheduler state: the fields of class `VideoRenderQueue`, plus
`activeJob`, the history index of the job currently inside the
`await sleep(renderTime)` of `processNext` (held in the coroutine's local
variable `job` in the source, not in a class field). -/
structure VideoRenderQueue where
  /-- `private queue: Queue<RenderJob>`, as the list of history indices of the
  queued jobs, head first. -/
  queue : List Nat
  /-- `private history: RenderJob[]`. -/
  history : List RenderJob
  /-- `private cancelledSegments: Set<string>`, as an insertion-ordered
  duplicate-free list. -/
  cancelledSegments : List String
  /-- `private isProcessing: boolean`. -/
  isProcessing : Bool
  /-- `private jobCounter: number`. -/
  jobCounter : Nat
  /-- Index of the job currently being rendered (sleeping), if any. -/
  activeJob : Option Nat
deriving DecidableEq, Repr

namespace VideoRenderQueue

/-- The state of a freshly constructed `VideoRenderQueue`. -/
def initState : VideoRenderQueue :=
  { queue := []
    history := []
    cancelledSegments := []
    isProcessing := false
    jobCounter := 0
    activeJob := none }

/-- The body of the `for` loop of `cancelPendingForSegment`: flip a job to
`cancelled` when it belongs to the segment and is still `pending`. -/
def cancelJob (segmentId : String) (j : RenderJob) : RenderJob :=
  if j.segmentId = segmentId ∧ j.status = .pending then
    { j with status := .cancelled }
  else
    j

/-- `cancelPendingForSegment(segmentId)`: add the segment to
`cancelledSegments` (a `Set`, so adding an existing element is a no-op) and
flip every still-`pending` job of that segment in `history` to `cancelled`. -/
def cancelPendingForSegment (segmentId : String) (s : VideoRenderQueue) :
    VideoRenderQueue :=
  { s with
    cancelledSegments :=
      if segmentId ∈ s.cancelledSegments then s.cancelledSegments
      else s.cancelledSegments ++ [segmentId]
    history := s.history.map (cancelJob segmentId) }

/-- The `times` record literal of `estimateRenderTime`, as the key/value
table it is written as. -/
def renderTimesTable : List (EffectType × Nat) :=
  [(.trim, 100), (.speed_change, 200), (.color_grade, 350), (.blur, 300),
   (.transition, 250)]

/-- `estimateRenderTime(effect)`: look the effect kind up in the duration
policy table; `none` models an undefined lookup (an effect kind absent from
the table). -/
def estimateRenderTime (e : EffectType) : Option Nat :=
  (renderTimesTable.find? (fun p => p.1 = e)).map (·.2)

/-- Outcome of the synchronous prefix of `processNext`: the new queue and
history, the final `isProcessing` flag, and the index of the job that entered
`processing` (now sleeping), if any. -/
structure DrainResult where
  queue : List Nat
  history : List RenderJob
  isProcessing : Bool
  activeJob : Option Nat
deriving DecidableEq, Repr

/-- Replace the history entry at index `i` by `f` of it (in-place mutation of
the shared job object in the source); out-of-range indices leave the list
unchanged. -/
def modifyAt (f : RenderJob → RenderJob) : Nat → List RenderJob → List RenderJob
  | _, [] => []
  | 0, j :: js => f j :: js
  | n + 1, j :: js => j :: modifyAt f n js

/-- The synchronous prefix of `processNext`: pop jobs off the queue, skipping
(`[SKIP]`) every job whose status is already `cancelled` without touching its
record, until either the queue is empty (worker goes idle, `isProcessing`
becomes false) or a live job is found, which is marked `processing` and
becomes the sleeping active job (`isProcessing` true).  An index with no
history entry cannot occur (the queue only holds indices of pushed jobs); such
an index is skipped. -/
def processLoop : List Nat → List RenderJob → DrainResult
  | [], h => ⟨[], h, false, none⟩
  | i :: rest, h =>
    match h[i]? with
    | some j =>
      if j.status = .cancelled then processLoop rest h
      else ⟨rest, modifyAt (fun j => { j with status := .processing }) i h,
            true, some i⟩
    | none => processLoop rest h

/-- Run the synchronous prefix of `processNext` on the scheduler state. -/
def drain (s : VideoRenderQueue) : VideoRenderQueue :=
  let r := processLoop s.queue s.history
  { s with
    queue := r.queue
    history := r.history
    isProcessing := r.isProcessing
    activeJob := r.activeJob }

/-- The record constructed by `enqueue` for counter value `counter`:
`id = job_<counter>`, status `pending`, no duration. -/
def mkJob (params : CreateJobParams) (now counter : Nat) : RenderJob :=
  { id := "job_" ++ toString counter
    segmentId := params.segmentId
    effect := params.effect
    priority := params.priority
    createdAt := now
    status := .pending
    durationMs := none }

/-- The mutating core of `enqueue(params)` before the worker is (re)started:
cancel pending jobs of the segment, build the fresh record, append it to the
FIFO queue tail and to `history`.  Returns the constructed record and the new
state. -/
def enqueueCore (params : CreateJobParams) (now : Nat) (s : VideoRenderQueue) :
    RenderJob × VideoRenderQueue :=
  let s1 := cancelPendingForSegment params.segmentId s
  let counter := s1.jobCounter + 1
  let job := mkJob params now counter
  (job,
   { s1 with
     queue := s1.queue ++ [s1.history.length]
     history := s1.history ++ [job]
     jobCounter := counter })

/-- `enqueue(params)`: the core above, then
`if (!this.isProcessing) this.processNext()` — when the worker is idle its
synchronous prefix runs before `enqueue` returns.  The returned record is the
snapshot constructed by `enqueue` (status `pending`). -/
def enqueue (params : CreateJobParams) (now : Nat) (s : VideoRenderQueue) :
    RenderJob × VideoRenderQueue :=
  let (job, s1) := enqueueCore params now s
  (job, if s1.isProcessing then s1 else drain s1)

/-- Completion of the `await sleep(renderTime)` inside `processNext`: the
active job becomes `done` with measured elapsed time `d` recorded as
`durationMs`, and `processNext` recurses (its synchronous prefix runs).  With
no sleep in flight there is nothing to wake. -/
def wake (d : Nat) (s : VideoRenderQueue) : VideoRenderQueue :=
  match s.activeJob with
  | none => s
  | some i =>
      drain
        { s with
          history :=
            modifyAt (fun j => { j with status := .done, durationMs := some d })
              i s.history
          activeJob := none }

/-- Number of jobs in a history with the given status
(`counts[job.status]++`). -/
def countStatus (st : JobStatus) (h : List RenderJob) : Nat :=
  (h.filter (fun j => j.status = st)).length

/-- The `renderTimes` array collected by `getStats()`: the `durationMs` of
every history entry that is `done` and has a defined duration. -/
def doneDurations (h : List RenderJob) : List Nat :=
  h.filterMap (fun j => if j.status = .done then j.durationMs else none)

/-- `Math.round(sum / len)` for non-negative integers: round half up. -/
def jsRound (sum len : Nat) : Nat := (2 * sum + len) / (2 * len)

/-- `getStats()`: count each status over `history` and average the collected
durations (`Math.round`, or 0 when none).  Translated state-passing: the pair
returns the (unchanged) scheduler state alongside the statistics. -/
def getStats (s : VideoRenderQueue) : QueueStats × VideoRenderQueue :=
  let rts := doneDurations s.history
  (⟨countStatus .pending s.history,
    countStatus .processing s.history,
    countStatus .done s.history,
    countStatus .cancelled s.history,
    if rts.length > 0 then jsRound rts.sum rts.length else 0⟩,
   s)

/-- The externally triggered atomic steps of the scheduler: a call to
`enqueue` (with the current clock value), a direct call to
`cancelPendingForSegment`, and the completion of a sleeping render (with the
measured elapsed time). -/
inductive Event
  | submit (params : CreateJobParams) (now : Nat)
  | cancelSeg (segmentId : String)
  | wakeUp (d : Nat)
deriving DecidableEq, Repr

/-- Apply one event to the scheduler state. -/
def applyEvent (e : Event) (s : VideoRenderQueue) : VideoRenderQueue :=
  match e with
  | .submit params now => (enqueue params now s).2
  | .cancelSeg segmentId => cancelPendingForSegment segmentId s
  | .wakeUp d => wake d s

/-- Run a list of events from a given state. -/
def runFrom (s : VideoRenderQueue) : List Event → VideoRenderQueue
  | [] => s
  | e :: es => runFrom (applyEvent e s) es

/-- Run a list of events from the initial state. -/
def run (es : List Event) : VideoRenderQueue := runFrom initState es

/-- A state is reachable when some interleaving of calls and worker steps
produces it from the initial state. -/
def Reachable (s : VideoRenderQueue) : Prop := ∃ es : List Event, run es = s

/-! ## Basic lemmas about `modifyAt` and `cancelJob` -/

theorem length_modifyAt (f : RenderJob → RenderJob) (i : Nat)
    (h : List RenderJob) : (modifyAt f i h).length = h.length := by
  induction h generalizing i with
  | nil => cases i <;> rfl
  | cons j js ih => cases i with
    | zero => rfl
    | succ n => simpa [modifyAt] using ih n

theorem getElem?_modifyAt_self (f : RenderJob → RenderJob) (i : Nat)
    (h : List RenderJob) : (modifyAt f i h)[i]? = h[i]?.map f := by
  induction h generalizing i with
  | nil => cases i <;> rfl
  | cons j js ih => cases i with
    | zero => simp [modifyAt]
    | succ n => simpa [modifyAt] using ih n

theorem getElem?_modifyAt_ne (f : RenderJob → RenderJob) {i k : Nat}
    (hik : i ≠ k) (h : List RenderJob) : (modifyAt f i h)[k]? = h[k]? := by
  induction h generalizing i k with
  | nil => cases i <;> rfl
  | cons j js ih => cases i with
    | zero => cases k with
      | zero => exact absurd rfl hik
      | succ m => simp [modifyAt]
    | succ n => cases k with
      | zero => simp [modifyAt]
      | succ m => simpa [modifyAt] using ih (fun hnm => hik (by omega))

theorem mem_modifyAt {f : RenderJob → RenderJob} {i : Nat}
    {h : List RenderJob} {j' : RenderJob} (hj : j' ∈ modifyAt f i h) :
    j' ∈ h ∨ ∃ j, h[i]? = some j ∧ j' = f j := by
  induction h generalizing i with
  | nil => cases i <;> simp [modifyAt] at hj
  | cons j js ih =>
    cases i with
    | zero =>
      rcases List.mem_cons.mp hj with hj | hj
      · exact Or.inr ⟨j, by simp, hj⟩
      · exact Or.inl (List.mem_cons_of_mem _ hj)
    | succ n =>
      rcases List.mem_cons.mp hj with hj | hj
      · exact Or.inl (hj ▸ List.mem_cons_self _ _)
      · rcases ih hj with hmem | ⟨j₀, hj₀, hfe⟩
        · exact Or.inl (List.mem_cons_of_mem _ hmem)
        · exact Or.inr ⟨j₀, by simpa using hj₀, hfe⟩

theorem cancelJob_durationMs (segmentId : String) (j : RenderJob) :
    (cancelJob segmentId j).durationMs = j.durationMs := by
  unfold cancelJob; split <;> rfl

theorem cancelJob_segmentId (segmentId : String) (j : RenderJob) :
    (cancelJob segmentId j).segmentId = j.segmentId := by
  unfold cancelJob; split <;> rfl

theorem cancelJob_of_not_match {segmentId : String} {j : RenderJob}
    (h : ¬(j.segmentId = segmentId ∧ j.status = .pending)) :
    cancelJob segmentId j = j := by
  unfold cancelJob; exact if_neg h

theorem cancelJob_of_match {segmentId : String} {j : RenderJob}
    (h1 : j.segmentId = segmentId) (h2 : j.status = .pending) :
    cancelJob segmentId j = { j with status := .cancelled } := by
  unfold cancelJob; exact if_pos ⟨h1, h2⟩

theorem cancelJob_pending {segmentId : String} {j : RenderJob}
    (h : (cancelJob segmentId j).status = .pending) :
    cancelJob segmentId j = j ∧ j.status = .pending ∧
      j.segmentId ≠ segmentId := by
  by_cases hc : j.segmentId = segmentId ∧ j.status = .pending
  · rw [cancelJob_of_match hc.1 hc.2] at h
    exact absurd h (by simp)
  · rw [cancelJob_of_not_match hc] at h ⊢
    refine ⟨rfl, h, fun hseg => hc ⟨hseg, h⟩⟩

theorem cancelJob_idem (segmentId : String) (j : RenderJob) :
    cancelJob segmentId (cancelJob segmentId j) = cancelJob segmentId j := by
  by_cases hc : j.segmentId = segmentId ∧ j.status = .pending
  · rw [cancelJob_of_match hc.1 hc.2]
    exact cancelJob_of_not_match (by simp)
  · rw [cancelJob_of_not_match hc, cancelJob_of_not_match hc]

/-! ## The state invariant -/

/-- Every history record has a duration exactly when it is `done`. -/
def HistOK (h : List RenderJob) : Prop :=
  ∀ j ∈ h, (j.durationMs ≠ none ↔ j.status = .done)

/-- At most one `pending` record per segment: two pending history entries
with the same `segmentId` sit at the same index. -/
def PendingUnique (h : List RenderJob) : Prop :=
  ∀ (i k : Nat) (j j' : RenderJob), h[i]? = some j → h[k]? = some j' →
    j.segmentId = j'.segmentId → j.status = .pending →
    j'.status = .pending → i = k

/-- Every queued index refers to a history record that is still `pending` or
has been lazily `cancelled` (never `processing` or `done`). -/
def QueueOK (q : List Nat) (h : List RenderJob) : Prop :=
  ∀ i ∈ q, ∃ j, h[i]? = some j ∧
    (j.status = .pending ∨ j.status = .cancelled)

/-- Queued history indices are strictly increasing (each job is enqueued once,
at the then-current history length). -/
def QueueSorted (q : List Nat) : Prop := q.Pairwise (· < ·)

/-- The sleeping job, when present, is a history record in state
`processing`. -/
def ActiveOK (a : Option Nat) (h : List RenderJob) : Prop :=
  ∀ i, a = some i → ∃ j, h[i]? = some j ∧ j.status = .processing

/-- The scheduler's global state invariant. -/
def Inv (s : VideoRenderQueue) : Prop :=
  HistOK s.history ∧ PendingUnique s.history ∧
    QueueOK s.queue s.history ∧ QueueSorted s.queue ∧
    ActiveOK s.activeJob s.history

theorem inv_initState : Inv initState := by
  refine ⟨?_, ?_, ?_, ?_, ?_⟩
  · intro j hj; simp [initState] at hj
  · intro i k j j' hj; simp [initState] at hj
  · intro i hi; simp [initState] at hi
  · simp [initState, QueueSorted]
  · intro i hi; simp [initState] at hi

/-! ## Invariant preservation: `cancelPendingForSegment` -/

theorem histOK_cancel {segmentId : String} {h : List RenderJob}
    (hh : HistOK h) : HistOK (h.map (cancelJob segmentId)) := by
  intro j' hj'
  rcases List.mem_map.mp hj' with ⟨j, hj, rfl⟩
  by_cases hc : j.segmentId = segmentId ∧ j.status = .pending
  · rw [cancelJob_of_match hc.1 hc.2]
    have hnone : j.durationMs = none := by
      by_contra hne
      have := (hh j hj).mp hne
      rw [hc.2] at this
      exact absurd this (by simp)
    simp [hnone]
  · rw [cancelJob_of_not_match hc]
    exact hh j hj

theorem pendingUnique_cancel {segmentId : String} {h : List RenderJob}
    (hp : PendingUnique h) :
    PendingUnique (h.map (cancelJob segmentId)) := by
  intro i k j j' hi hk hseg hjp hj'p
  rw [List.getElem?_map] at hi hk
  rcases Option.map_eq_some'.mp hi with ⟨j₀, hj₀, hje⟩
  rcases Option.map_eq_some'.mp hk with ⟨j₀', hj₀', hje'⟩
  have h₀ := cancelJob_pending (by rw [hje]; exact hjp)
  have h₀' := cancelJob_pending (by rw [hje']; exact hj'p)
  refine hp i k j₀ j₀' hj₀ hj₀' ?_ h₀.2.1 h₀'.2.1
  have e1 : j.segmentId = j₀.segmentId := by
    rw [← hje, h₀.1]
  have e2 : j'.segmentId = j₀'.segmentId := by
    rw [← hje', h₀'.1]
  rw [← e1, ← e2, hseg]

/-- After cancelling, no pending job for the segment remains in history. -/
theorem no_pending_after_cancel (segmentId : String) (h : List RenderJob) :
    ∀ j ∈ h.map (cancelJob segmentId),
      ¬(j.segmentId = segmentId ∧ j.status = .pending) := by
  intro j' hj' ⟨hseg, hst⟩
  rcases List.mem_map.mp hj' with ⟨j, _, rfl⟩
  have h₀ := cancelJob_pending hst
  exact h₀.2.2 (by rw [cancelJob_segmentId] at hseg; exact hseg)

theorem queueOK_cancel {segmentId : String} {q : List Nat}
    {h : List RenderJob} (hq : QueueOK q h) :
    QueueOK q (h.map (cancelJob segmentId)) := by
  intro i hi
  rcases hq i hi with ⟨j, hj, hst⟩
  refine ⟨cancelJob segmentId j, by rw [List.getElem?_map, hj]; rfl, ?_⟩
  by_cases hc : j.segmentId = segmentId ∧ j.status = .pending
  · rw [cancelJob_of_match hc.1 hc.2]; exact Or.inr rfl
  · rw [cancelJob_of_not_match hc]; exact hst

theorem activeOK_cancel {segmentId : String} {a : Option Nat}
    {h : List RenderJob} (ha : ActiveOK a h) :
    ActiveOK a (h.map (cancelJob segmentId)) := by
  intro i hi
  rcases ha i hi with ⟨j, hj, hst⟩
  refine ⟨j, ?_, hst⟩
  rw [List.getElem?_map, hj]
  have : cancelJob segmentId j = j :=
    cancelJob_of_not_match (fun hc => by rw [hst] at hc; exact absurd hc.2 (by simp))
  simp [this]

theorem inv_cancelPendingForSegment {s : VideoRenderQueue}
    (hInv : Inv s) (segmentId : String) :
    Inv (cancelPendingForSegment segmentId s) := by
  obtain ⟨hh, hp, hq, hsrt, ha⟩ := hInv
  exact ⟨histOK_cancel hh, pendingUnique_cancel hp, queueOK_cancel hq, hsrt,
    activeOK_cancel ha⟩

/-! ## Invariant preservation: `enqueueCore` -/

/-- Membership characterisation of a history entry of `h ++ [job]`. -/
theorem getElem?_history_append {h : List RenderJob} {job j : RenderJob}
    {i : Nat} (hi : (h ++ [job])[i]? = some j) :
    (i < h.length ∧ h[i]? = some j) ∨ (i = h.length ∧ j = job) := by
  by_cases hlt : i < h.length
  · exact Or.inl ⟨hlt, by rw [← List.getElem?_append_left hlt]; exact hi⟩
  · have hle : h.length ≤ i := Nat.le_of_not_lt hlt
    have hlen : i < (h ++ [job]).length := (List.getElem?_eq_some.mp hi).1
    simp at hlen
    have : i = h.length := by omega
    subst this
    rw [List.getElem?_concat_length] at hi
    exact Or.inr ⟨rfl, (Option.some_injective _ hi).symm⟩

theorem inv_enqueueCore {s : VideoRenderQueue} (hInv : Inv s)
    (params : CreateJobParams) (now : Nat) :
    Inv (enqueueCore params now s).2 := by
  have h1 := inv_cancelPendingForSegment hInv params.segmentId
  set s1 := cancelPendingForSegment params.segmentId s with hs1
  obtain ⟨hh, hp, hq, hsrt, ha⟩ := h1
  have hnp : ∀ j ∈ s1.history,
      ¬(j.segmentId = params.segmentId ∧ j.status = .pending) :=
    no_pending_after_cancel params.segmentId s.history
  set job := mkJob params now (s1.jobCounter + 1) with hjob
  refine ⟨?_, ?_, ?_, ?_, ?_⟩
  · -- HistOK
    show HistOK (s1.history ++ [job])
    intro j hj
    rcases List.mem_append.mp hj with hj | hj
    · exact hh j hj
    · rcases List.mem_singleton.mp hj with rfl
      simp [hjob, mkJob]
  · -- PendingUnique
    show PendingUnique (s1.history ++ [job])
    intro i k j j' hi hk hseg hjp hj'p
    rcases getElem?_history_append hi with ⟨hilt, hie⟩ | ⟨hieq, rfl⟩
    · rcases getElem?_history_append hk with ⟨hklt, hke⟩ | ⟨hkeq, rfl⟩
      · exact hp i k j j' hie hke hseg hjp hj'p
      · -- j pending in s1 with job's segment: impossible
        have : j.segmentId = params.segmentId := by
          rw [hseg]; simp [hjob, mkJob]
        exact absurd ⟨this, hjp⟩ (hnp j (List.getElem?_mem hie))
    · rcases getElem?_history_append hk with ⟨hklt, hke⟩ | ⟨hkeq, hkj⟩
      · have : j'.segmentId = params.segmentId := by
          rw [← hseg]; simp [hjob, mkJob]
        exact absurd ⟨this, hj'p⟩ (hnp j' (List.getElem?_mem hke))
      · rw [hieq, hkeq]
  · -- QueueOK
    show QueueOK (s1.queue ++ [s1.history.length]) (s1.history ++ [job])
    intro i hi
    rcases List.mem_append.mp hi with hi | hi
    · rcases hq i hi with ⟨j, hj, hst⟩
      have hlt : i < s1.history.length := (List.getElem?_eq_some.mp hj).1
      exact ⟨j, by rw [List.getElem?_append_left hlt]; exact hj, hst⟩
    · rcases List.mem_singleton.mp hi with rfl
      exact ⟨job, List.getElem?_concat_length _ _, Or.inl (by simp [hjob, mkJob])⟩
  · -- QueueSorted
    show QueueSorted (s1.queue ++ [s1.history.length])
    refine List.pairwise_append.mpr ⟨hsrt, List.pairwise_singleton _ _, ?_⟩
    intro i hi x hx
    rcases List.mem_singleton.mp hx with rfl
    rcases hq i hi with ⟨j, hj, _⟩
    exact (List.getElem?_eq_some.mp hj).1
  · -- ActiveOK
    show ActiveOK s1.activeJob (s1.history ++ [job])
    intro i hi
    rcases ha i hi with ⟨j, hj, hst⟩
    have hlt : i < s1.history.length := (List.getElem?_eq_some.mp hj).1
    exact ⟨j, by rw [List.getElem?_append_left hlt]; exact hj, hst⟩

/-! ## Invariant preservation: the worker loop -/

theorem processLoop_inv {q : List Nat} {h : List RenderJob}
    (hq : QueueOK q h) (hsrt : QueueSorted q) (hh : HistOK h)
    (hp : PendingUnique h) :
    HistOK (processLoop q h).history ∧
      PendingUnique (processLoop q h).history ∧
      QueueOK (processLoop q h).queue (processLoop q h).history ∧
      QueueSorted (processLoop q h).queue ∧
      ActiveOK (processLoop q h).activeJob (processLoop q h).history := by
  induction q with
  | nil =>
    refine ⟨hh, hp, ?_, ?_, ?_⟩
    · intro i hi; simp [processLoop] at hi
    · simp [processLoop, QueueSorted]
    · intro i hi; simp [processLoop] at hi
  | cons i rest ih =>
    have hqrest : QueueOK rest h := fun k hk => hq k (List.mem_cons_of_mem _ hk)
    have hsrtrest : QueueSorted rest := (List.pairwise_cons.mp hsrt).2
    have hilt : ∀ k ∈ rest, i < k := (List.pairwise_cons.mp hsrt).1
    rcases hq i (List.mem_cons_self _ _) with ⟨j, hj, hst⟩
    rcases hst with hpend | hcanc
    · -- the head job is pending: it is selected and marked processing
      have hnc : ¬j.status = .cancelled := by rw [hpend]; simp
      have hloop : processLoop (i :: rest) h =
          ⟨rest, modifyAt (fun j => { j with status := .processing }) i h,
           true, some i⟩ := by
        simp [processLoop, hj, hnc]
      rw [hloop]
      set h' := modifyAt (fun j => { j with status := .processing }) i h
        with hh'
      have hself : h'[i]? = some { j with status := .processing } := by
        rw [hh', getElem?_modifyAt_self, hj]; rfl
      have hother : ∀ k, k ≠ i → h'[k]? = h[k]? := fun k hk =>
        getElem?_modifyAt_ne _ (fun he => hk he.symm) h
      refine ⟨?_, ?_, ?_, hsrtrest, ?_⟩
      · -- HistOK
        intro j' hj'
        rcases mem_modifyAt hj' with hmem | ⟨j₀, hj₀, rfl⟩
        · exact hh j' hmem
        · have : j₀ = j := Option.some_injective _ (hj₀ ▸ hj)
          subst this
          have hnone : j₀.durationMs = none := by
            by_contra hne
            have := (hh j₀ (List.getElem?_mem hj₀)).mp hne
            rw [hpend] at this
            exact absurd this (by simp)
          simp [hnone]
      · -- PendingUnique
        intro a b ja jb hja hjb hseg hjap hjbp
        have hai : a ≠ i := by
          intro he; subst he
          have : ja = { j with status := .processing } :=
            Option.some_injective _ (hja ▸ hself)
          rw [this] at hjap
          exact absurd hjap (by simp)
        have hbi : b ≠ i := by
          intro he; subst he
          have : jb = { j with status := .processing } :=
            Option.some_injective _ (hjb ▸ hself)
          rw [this] at hjbp
          exact absurd hjbp (by simp)
        exact hp a b ja jb (hother a hai ▸ hja) (hother b hbi ▸ hjb)
          hseg hjap hjbp
      · -- QueueOK
        intro k hk
        have hki : k ≠ i := fun he => absurd (he ▸ hilt k hk) (lt_irrefl i)
        rcases hqrest k hk with ⟨jk, hjk, hstk⟩
        exact ⟨jk, by rw [hother k hki]; exact hjk, hstk⟩
      · -- ActiveOK
        intro k hk
        rcases Option.some_injective _ hk.symm with rfl
        exact ⟨{ j with status := .processing }, hself, rfl⟩
    · -- the head job is cancelled: it is skipped unmodified
      have hloop : processLoop (i :: rest) h = processLoop rest h := by
        simp [processLoop, hj, hcanc]
      rw [hloop]
      exact ih hqrest hsrtrest

/-- The worker loop never modifies a history entry that is not `pending`
(in particular it skips `cancelled` jobs without touching them). -/
theorem processLoop_preserves_not_pending {q : List Nat}
    {h : List RenderJob} (hq : QueueOK q h) :
    ∀ (i : Nat) (j : RenderJob), h[i]? = some j → j.status ≠ .pending →
      (processLoop q h).history[i]? = some j := by
  induction q with
  | nil => intro i j hj _; exact hj
  | cons k rest ih =>
    intro i j hj hnp
    have hqrest : QueueOK rest h := fun a ha => hq a (List.mem_cons_of_mem _ ha)
    rcases hq k (List.mem_cons_self _ _) with ⟨jk, hjk, hstk⟩
    rcases hstk with hpend | hcanc
    · have hnc : ¬jk.status = .cancelled := by rw [hpend]; simp
      have hloop : processLoop (k :: rest) h =
          ⟨rest, modifyAt (fun j => { j with status := .processing }) k h,
           true, some k⟩ := by
        simp [processLoop, hjk, hnc]
      rw [hloop]
      have hki : k ≠ i := by
        intro he; subst he
        have : jk = j := Option.some_injective _ (hjk ▸ hj)
        rw [this] at hpend
        exact hnp hpend
      exact (getElem?_modifyAt_ne _ hki h) ▸ hj
    · have hloop : processLoop (k :: rest) h = processLoop rest h := by
        simp [processLoop, hjk, hcanc]
      rw [hloop]
      exact ih hqrest i j hj hnp

theorem inv_drain {s : VideoRenderQueue} (hInv : Inv s) : Inv (drain s) := by
  obtain ⟨hh, hp, hq, hsrt, _⟩ := hInv
  have := processLoop_inv hq hsrt hh hp
  exact ⟨this.1, this.2.1, this.2.2.1, this.2.2.2.1, this.2.2.2.2⟩

theorem inv_enqueue {s : VideoRenderQueue} (hInv : Inv s)
    (params : CreateJobParams) (now : Nat) :
    Inv (enqueue params now s).2 := by
  have hcore := inv_enqueueCore hInv params now
  show Inv (if (enqueueCore params now s).2.isProcessing
    then (enqueueCore params now s).2 else drain (enqueueCore params now s).2)
  split
  · exact hcore
  · exact inv_drain hcore

theorem inv_wake {s : VideoRenderQueue} (hInv : Inv s) (d : Nat) :
    Inv (wake d s) := by
  obtain ⟨hh, hp, hq, hsrt, ha⟩ := hInv
  unfold wake
  cases hact : s.activeJob with
  | none => exact ⟨hh, hp, hq, hsrt, ha⟩
  | some i =>
    rcases ha i hact with ⟨j, hj, hst⟩
    set h1 := modifyAt (fun j => { j with status := .done, durationMs := some d })
      i s.history with hh1
    have hself : h1[i]? =
        some { j with status := .done, durationMs := some d } := by
      rw [hh1, getElem?_modifyAt_self, hj]; rfl
    have hother : ∀ k, k ≠ i → h1[k]? = s.history[k]? := fun k hk =>
      getElem?_modifyAt_ne _ (fun he => hk he.symm) s.history
    have hh' : HistOK h1 := by
      intro j' hj'
      rcases mem_modifyAt hj' with hmem | ⟨j₀, hj₀, rfl⟩
      · exact hh j' hmem
      · simp
    have hp' : PendingUnique h1 := by
      intro a b ja jb hja hjb hseg hjap hjbp
      have hai : a ≠ i := by
        intro he; subst he
        have : ja = { j with status := .done, durationMs := some d } :=
          Option.some_injective _ (hja ▸ hself)
        rw [this] at hjap
        exact absurd hjap (by simp)
      have hbi : b ≠ i := by
        intro he; subst he
        have : jb = { j with status := .done, durationMs := some d } :=
          Option.some_injective _ (hjb ▸ hself)
        rw [this] at hjbp
        exact absurd hjbp (by simp)
      exact hp a b ja jb (hother a hai ▸ hja) (hother b hbi ▸ hjb)
        hseg hjap hjbp
    have hq' : QueueOK s.queue h1 := by
      intro k hk
      rcases hq k hk with ⟨jk, hjk, hstk⟩
      have hki : k ≠ i := by
        intro he; subst he
        have : jk = j := Option.some_injective _ (hjk ▸ hj)
        rw [this, hst] at hstk
        rcases hstk with hc | hc <;> exact absurd hc (by simp)
      exact ⟨jk, by rw [hother k hki]; exact hjk, hstk⟩
    have := processLoop_inv hq' hsrt hh' hp'
    exact ⟨this.1, this.2.1, this.2.2.1, this.2.2.2.1, this.2.2.2.2⟩

theorem inv_applyEvent {s : VideoRenderQueue} (hInv : Inv s) (e : Event) :
    Inv (applyEvent e s) := by
  cases e with
  | submit params now => exact inv_enqueue hInv params now
  | cancelSeg segmentId => exact inv_cancelPendingForSegment hInv segmentId
  | wakeUp d => exact inv_wake hInv d

theorem inv_runFrom {s : VideoRenderQueue} (hInv : Inv s)
    (es : List Event) : Inv (runFrom s es) := by
  induction es generalizing s with
  | nil => exact hInv
  | cons e es ih => exact ih (inv_applyEvent hInv e)

theorem inv_of_reachable {s : VideoRenderQueue} (hs : Reachable s) : Inv s := by
  rcases hs with ⟨es, rfl⟩
  exact inv_runFrom inv_initState es

/-! ## Cancelled records are terminal -/

theorem applyEvent_preserves_cancelled {s : VideoRenderQueue} (hInv : Inv s)
    (e : Event) {i : Nat} {j : RenderJob} (hj : s.history[i]? = some j)
    (hc : j.status = .cancelled) : (applyEvent e s).history[i]? = some j := by
  have hjfix : ∀ segmentId, cancelJob segmentId j = j := fun segmentId =>
    cancelJob_of_not_match (fun hcc => by rw [hc] at hcc; exact absurd hcc.2 (by simp))
  have hnp : j.status ≠ .pending := by rw [hc]; simp
  cases e with
  | cancelSeg segmentId =>
    show (s.history.map (cancelJob segmentId))[i]? = some j
    rw [List.getElem?_map, hj]
    simp [hjfix segmentId]
  | submit params now =>
    have h1 : (cancelPendingForSegment params.segmentId s).history[i]?
        = some j := by
      show (s.history.map (cancelJob params.segmentId))[i]? = some j
      rw [List.getElem?_map, hj]
      simp [hjfix params.segmentId]
    have hlt : i < (cancelPendingForSegment params.segmentId s).history.length :=
      (List.getElem?_eq_some.mp h1).1
    have hcore : (enqueueCore params now s).2.history[i]? = some j := by
      show ((cancelPendingForSegment params.segmentId s).history ++ _)[i]?
        = some j
      rw [List.getElem?_append_left hlt]
      exact h1
    have hcoreInv := inv_enqueueCore hInv params now
    show (if (enqueueCore params now s).2.isProcessing
      then (enqueueCore params now s).2
      else drain (enqueueCore params now s).2).history[i]? = some j
    split
    · exact hcore
    · exact processLoop_preserves_not_pending hcoreInv.2.2.1 i j hcore hnp
  | wakeUp d =>
    show (wake d s).history[i]? = some j
    unfold wake
    cases hact : s.activeJob with
    | none => exact hj
    | some a =>
      obtain ⟨hh, hp, hq, hsrt, ha⟩ := hInv
      rcases ha a hact with ⟨ja, hja, hsta⟩
      have hai : a ≠ i := by
        intro he; subst he
        have : ja = j := Option.some_injective _ (hja ▸ hj)
        rw [this, hc] at hsta
        exact absurd hsta (by simp)
      set h1 := modifyAt
        (fun j => { j with status := .done, durationMs := some d })
        a s.history with hh1
      have h1j : h1[i]? = some j := by
        rw [hh1, getElem?_modifyAt_ne _ hai, hj]
      have hq' : QueueOK s.queue h1 := by
        intro k hk
        rcases hq k hk with ⟨jk, hjk, hstk⟩
        have hka : k ≠ a := by
          intro he; subst he
          have : jk = ja := Option.some_injective _ (hjk ▸ hja)
          rw [this, hsta] at hstk
          rcases hstk with hcc | hcc <;> exact absurd hcc (by simp)
        refine ⟨jk, ?_, hstk⟩
        rw [hh1, getElem?_modifyAt_ne _ (fun he => hka he.symm), hjk]
      exact processLoop_preserves_not_pending hq' i j h1j hnp

theorem runFrom_preserves_cancelled {s : VideoRenderQueue} (hInv : Inv s)
    (es : List Event) {i : Nat} {j : RenderJob}
    (hj : s.history[i]? = some j) (hc : j.status = .cancelled) :
    (runFrom s es).history[i]? = some j := by
  induction es generalizing s with
  | nil => exact hj
  | cons e es ih =>
    exact ih (inv_applyEvent hInv e)
      (applyEvent_preserves_cancelled hInv e hj hc)

/-! ## Statistics lemmas -/

theorem countStatus_partition (h : List RenderJob) :
    countStatus .pending h + countStatus .processing h +
      countStatus .done h + countStatus .cancelled h = h.length := by
  induction h with
  | nil => rfl
  | cons j js ih =>
    cases hst : j.status <;>
      simp [countStatus, List.filter_cons, hst] at ih ⊢ <;> omega

/-- The durations collected by `getStats` are exactly the defined durations
of the `done` jobs, in history order. -/
theorem doneDurations_eq_filter (h : List RenderJob) :
    doneDurations h =
      (h.filter (fun j => j.status = .done)).filterMap
        (fun j => j.durationMs) := by
  induction h with
  | nil => rfl
  | cons j js ih =>
    by_cases hst : j.status = .done
    · simp [doneDurations, List.filter_cons, hst, List.filterMap_cons] at ih ⊢
      cases j.durationMs <;> simp [ih]
    · simp [doneDurations, List.filter_cons, hst, List.filterMap_cons] at ih ⊢
      exact ih

/-- Under the duration invariant, every `done` job contributes exactly one
duration, so the collected list has one entry per `done` job. -/
theorem length_doneDurations {h : List RenderJob} (hh : HistOK h) :
    (doneDurations h).length = countStatus .done h := by
  induction h with
  | nil => rfl
  | cons j js ih =>
    have hjs : HistOK js := fun j' hj' => hh j' (List.mem_cons_of_mem _ hj')
    by_cases hst : j.status = .done
    · have hsome : j.durationMs ≠ none :=
        (hh j (List.mem_cons_self _ _)).mpr hst
      rcases Option.ne_none_iff_exists'.mp hsome with ⟨d, hd⟩
      simp [doneDurations, countStatus, List.filter_cons, hst,
        List.filterMap_cons, hd] at ih ⊢
      exact ih hjs
    · simp [doneDurations, countStatus, List.filter_cons, hst,
        List.filterMap_cons] at ih ⊢
      exact ih hjs

end VideoRenderQueue

/-! ## The scheduler without the `cancelledSegments` set

A refinement target following the observation that `cancelledSegments` is only
ever written: the same scheduler with the set removed, every other line kept
verbatim. -/

structure VideoRenderQueueNoSet where
  queue : List Nat
  history : List RenderJob
  isProcessing : Bool
  jobCounter : Nat
  activeJob : Option Nat
deriving DecidableEq, Repr

namespace VideoRenderQueueNoSet

open VideoRenderQueue (cancelJob mkJob processLoop countStatus doneDurations
  jsRound Event)

def initState : VideoRenderQueueNoSet :=
  { queue := [], history := [], isProcessing := false, jobCounter := 0,
    activeJob := none }

def cancelPendingForSegment (segmentId : String) (s : VideoRenderQueueNoSet) :
    VideoRenderQueueNoSet :=
  { s with history := s.history.map (cancelJob segmentId) }

def drain (s : VideoRenderQueueNoSet) : VideoRenderQueueNoSet :=
  let r := processLoop s.queue s.history
  { s with
    queue := r.queue
    history := r.history
    isProcessing := r.isProcessing
    activeJob := r.activeJob }

def enqueueCore (params : CreateJobParams) (now : Nat)
    (s : VideoRenderQueueNoSet) : RenderJob × VideoRenderQueueNoSet :=
  let s1 := cancelPendingForSegment params.segmentId s
  let counter := s1.jobCounter + 1
  let job := mkJob params now counter
  (job,
   { s1 with
     queue := s1.queue ++ [s1.history.length]
     history := s1.history ++ [job]
     jobCounter := counter })

def enqueue (params : CreateJobParams) (now : Nat)
    (s : VideoRenderQueueNoSet) : RenderJob × VideoRenderQueueNoSet :=
  let (job, s1) := enqueueCore params now s
  (job, if s1.isProcessing then s1 else drain s1)

def wake (d : Nat) (s : VideoRenderQueueNoSet) : VideoRenderQueueNoSet :=
  match s.activeJob with
  | none => s
  | some i =>
      drain
        { s with
          history :=
            VideoRenderQueue.modifyAt
              (fun j => { j with status := .done, durationMs := some d })
              i s.history
          activeJob := none }

def getStats (s : VideoRenderQueueNoSet) : QueueStats × VideoRenderQueueNoSet :=
  let rts := doneDurations s.history
  (⟨countStatus .pending s.history,
    countStatus .processing s.history,
    countStatus .done s.history,
    countStatus .cancelled s.history,
    if rts.length > 0 then jsRound rts.sum rts.length else 0⟩,
   s)

def applyEvent (e : Event) (s : VideoRenderQueueNoSet) : VideoRenderQueueNoSet :=
  match e with
  | .submit params now => (enqueue params now s).2
  | .cancelSeg segmentId => cancelPendingForSegment segmentId s
  | .wakeUp d => wake d s

def runFrom (s : VideoRenderQueueNoSet) : List Event → VideoRenderQueueNoSet
  | [] => s
  | e :: es => runFrom (applyEvent e s) es

def run (es : List Event) : VideoRenderQueueNoSet := runFrom initState es

end VideoRenderQueueNoSet

/-- Forget the `cancelledSegments` set: the observable scheduler state (queue,
history with all job statuses, worker flag, id counter, active render). -/
def eraseSet (s : VideoRenderQueue) : VideoRenderQueueNoSet :=
  { queue := s.queue
    history := s.history
    isProcessing := s.isProcessing
    jobCounter := s.jobCounter
    activeJob := s.activeJob }

theorem eraseSet_applyEvent (e : VideoRenderQueue.Event)
    (s : VideoRenderQueue) :
    eraseSet (VideoRenderQueue.applyEvent e s) =
      VideoRenderQueueNoSet.applyEvent e (eraseSet s) := by
  cases s with
  | mk q hist cs proc ctr act =>
    cases e with
    | submit params now => cases proc <;> rfl
    | cancelSeg segmentId => rfl
    | wakeUp d => cases act <;> rfl

theorem eraseSet_runFrom (s : VideoRenderQueue)
    (es : List VideoRenderQueue.Event) :
    eraseSet (VideoRenderQueue.runFrom s es) =
      VideoRenderQueueNoSet.runFrom (eraseSet s) es := by
  induction es generalizing s with
  | nil => rfl
  | cons e es ih =>
    rw [VideoRenderQueue.runFrom, VideoRenderQueueNoSet.runFrom,
      ← eraseSet_applyEvent]
    exact ih _

theorem eraseSet_run (es : List VideoRenderQueue.Event) :
    eraseSet (VideoRenderQueue.run es) = VideoRenderQueueNoSet.run es :=
  eraseSet_runFrom VideoRenderQueue.initState es

/-! ## The claims -/

open VideoRenderQueue

/-- C1: an `enqueue(segmentId, effect, priority)` call first flips every
history job of the same segment that is still `pending` to `cancelled` and
leaves every `processing` job untouched; it then appends one fresh `pending`
record (no duration) at the FIFO queue tail and at the end of `history`, and
returns that fresh record with status `pending`. -/
theorem claim_C1_enqueue_supersedes_and_appends (params : CreateJobParams)
    (now : Nat) (s : VideoRenderQueue) :
    ((enqueueCore params now s).1.status = .pending) ∧
    ((enqueueCore params now s).1.durationMs = none) ∧
    ((enqueue params now s).1 = (enqueueCore params now s).1) ∧
    ((enqueueCore params now s).2.queue = s.queue ++ [s.history.length]) ∧
    ((enqueueCore params now s).2.history =
      s.history.map (cancelJob params.segmentId) ++
        [(enqueueCore params now s).1]) ∧
    (∀ (i : Nat) (j : RenderJob), s.history[i]? = some j →
      j.segmentId = params.segmentId → j.status = .pending →
      (enqueueCore params now s).2.history[i]? =
        some { j with status := .cancelled }) ∧
    (∀ (i : Nat) (j : RenderJob), s.history[i]? = some j →
      j.status = .processing →
      (enqueueCore params now s).2.history[i]? = some j) := by
  refine ⟨rfl, rfl, rfl, ?_, rfl, ?_, ?_⟩
  · show s.queue ++ [(s.history.map (cancelJob params.segmentId)).length] =
      s.queue ++ [s.history.length]
    rw [List.length_map]
  · intro i j hj hseg hpend
    have hlt : i < (s.history.map (cancelJob params.segmentId)).length := by
      rw [List.length_map]
      exact (List.getElem?_eq_some.mp hj).1
    show ((s.history.map (cancelJob params.segmentId)) ++ _)[i]? = _
    rw [List.getElem?_append_left hlt, List.getElem?_map, hj]
    simp [cancelJob_of_match hseg hpend]
  · intro i j hj hproc
    have hlt : i < (s.history.map (cancelJob params.segmentId)).length := by
      rw [List.length_map]
      exact (List.getElem?_eq_some.mp hj).1
    show ((s.history.map (cancelJob params.segmentId)) ++ _)[i]? = _
    rw [List.getElem?_append_left hlt, List.getElem?_map, hj]
    have : cancelJob params.segmentId j = j :=
      cancelJob_of_not_match
        (fun hc => by rw [hproc] at hc; exact absurd hc.2 (by simp))
    simp [this]

theorem claim_C1_witness :
    ((enqueueCore ⟨"b", .speed_change, .normal⟩ 2
        (run [.submit ⟨"a", .blur, .high⟩ 0,
              .submit ⟨"b", .trim, .low⟩ 1])).2.history[1]? =
      some ⟨"job_2", "b", .trim, .low, 1, .cancelled, none⟩) ∧
    ((enqueueCore ⟨"b", .speed_change, .normal⟩ 2
        (run [.submit ⟨"a", .blur, .high⟩ 0,
              .submit ⟨"b", .trim, .low⟩ 1])).2.history[0]? =
      some ⟨"job_1", "a", .blur, .high, 0, .processing, none⟩) := by
  have h := claim_C1_enqueue_supersedes_and_appends
    ⟨"b", .speed_change, .normal⟩ 2
    (run [.submit ⟨"a", .blur, .high⟩ 0, .submit ⟨"b", .trim, .low⟩ 1])
  exact ⟨h.2.2.2.2.2.1 1 ⟨"job_2", "b", .trim, .low, 1, .pending, none⟩
      (by decide) (by decide) (by decide),
    h.2.2.2.2.2.2 0 ⟨"job_1", "a", .blur, .high, 0, .processing, none⟩
      (by decide) (by decide)⟩

/-- C2 counterexample: the claim fails as stated.  Submitting a second job
for segment `s` while its first job is being rendered leaves the first job
`processing` and adds a new `pending` job, so a stable reachable state (after
the submit call has returned) holds two records for one segment with status
in pending/processing. -/
theorem claim_C2_counterexample :
    Reachable (run [.submit ⟨"s", .trim, .normal⟩ 0,
                    .submit ⟨"s", .blur, .normal⟩ 1]) ∧
    ((run [.submit ⟨"s", .trim, .normal⟩ 0,
           .submit ⟨"s", .blur, .normal⟩ 1]).history.map
        (fun j => (j.segmentId, j.status)) =
      [("s", .processing), ("s", .pending)]) ∧
    (((run [.submit ⟨"s", .trim, .normal⟩ 0,
            .submit ⟨"s", .blur, .normal⟩ 1]).history.filter
        (fun j => j.segmentId = "s" ∧
          (j.status = .pending ∨ j.status = .processing))).length = 2) :=
  ⟨⟨[.submit ⟨"s", .trim, .normal⟩ 0, .submit ⟨"s", .blur, .normal⟩ 1], rfl⟩,
   by decide, by decide⟩

/-- C2 (amended): in every reachable state, at most one Job Record with a
given `segmentId` has status `pending`: two pending history entries with the
same segment are the same entry.  (A `processing` record of the same segment
may coexist with the pending one, as the counterexample shows.) -/
theorem claim_C2_amended_pending_unique (s : VideoRenderQueue)
    (hs : Reachable s) (i k : Nat) (j j' : RenderJob)
    (hi : s.history[i]? = some j) (hk : s.history[k]? = some j')
    (hseg : j.segmentId = j'.segmentId) (hp : j.status = .pending)
    (hp' : j'.status = .pending) : i = k :=
  (inv_of_reachable hs).2.1 i k j j' hi hk hseg hp hp'

theorem claim_C2_witness :
    Reachable (run [.submit ⟨"s", .trim, .normal⟩ 0,
                    .submit ⟨"s", .blur, .normal⟩ 1]) ∧ (1 : Nat) = 1 :=
  ⟨⟨[.submit ⟨"s", .trim, .normal⟩ 0, .submit ⟨"s", .blur, .normal⟩ 1], rfl⟩,
   claim_C2_amended_pending_unique _
     ⟨[.submit ⟨"s", .trim, .normal⟩ 0, .submit ⟨"s", .blur, .normal⟩ 1], rfl⟩
     1 1 ⟨"job_2", "s", .blur, .normal, 1, .pending, none⟩
     ⟨"job_2", "s", .blur, .normal, 1, .pending, none⟩
     (by decide) (by decide) rfl (by decide) (by decide)⟩

/-- C3: a record that is `cancelled` never changes again — no later
interleaving of calls and worker steps ever alters it (so it never becomes
`processing` or `done` and never acquires a `durationMs`); and when the
worker dequeues a cancelled job it skips it, leaving the history untouched,
and continues with the rest of the queue. -/
theorem claim_C3_cancelled_is_terminal (s : VideoRenderQueue)
    (hs : Reachable s) (i : Nat) (j : RenderJob)
    (hj : s.history[i]? = some j) (hc : j.status = .cancelled) :
    (∀ es : List Event, (runFrom s es).history[i]? = some j) ∧
    (∀ rest : List Nat,
      processLoop (i :: rest) s.history = processLoop rest s.history) := by
  constructor
  · intro es
    exact runFrom_preserves_cancelled (inv_of_reachable hs) es hj hc
  · intro rest
    simp [processLoop, hj, hc]

theorem claim_C3_witness :
    ((runFrom (run [.submit ⟨"s", .trim, .normal⟩ 0,
                    .submit ⟨"s", .blur, .normal⟩ 1,
                    .submit ⟨"s", .color_grade, .high⟩ 2])
        [.wakeUp 5, .wakeUp 9]).history[1]? =
      some ⟨"job_2", "s", .blur, .normal, 1, .cancelled, none⟩) ∧
    (processLoop
        (1 :: [2])
        (run [.submit ⟨"s", .trim, .normal⟩ 0,
              .submit ⟨"s", .blur, .normal⟩ 1,
              .submit ⟨"s", .color_grade, .high⟩ 2]).history =
      processLoop [2]
        (run [.submit ⟨"s", .trim, .normal⟩ 0,
              .submit ⟨"s", .blur, .normal⟩ 1,
              .submit ⟨"s", .color_grade, .high⟩ 2]).history) := by
  have h := claim_C3_cancelled_is_terminal
    (run [.submit ⟨"s", .trim, .normal⟩ 0,
          .submit ⟨"s", .blur, .normal⟩ 1,
          .submit ⟨"s", .color_grade, .high⟩ 2])
    ⟨[.submit ⟨"s", .trim, .normal⟩ 0,
      .submit ⟨"s", .blur, .normal⟩ 1,
      .submit ⟨"s", .color_grade, .high⟩ 2], rfl⟩
    1 ⟨"job_2", "s", .blur, .normal, 1, .cancelled, none⟩
    (by decide) (by decide)
  exact ⟨h.1 [.wakeUp 5, .wakeUp 9], h.2 [2]⟩

/-- C4: the declared priority never affects where the new job is placed: for
every priority the record's history index is appended at the FIFO queue tail
(arrival order), and two submissions differing only in priority produce the
same queue. -/
theorem claim_C4_priority_does_not_reorder (segmentId : String)
    (effect : EffectType) (p p' : JobPriority) (now : Nat)
    (s : VideoRenderQueue) :
    ((enqueueCore ⟨segmentId, effect, p⟩ now s).2.queue =
      s.queue ++ [s.history.length]) ∧
    ((enqueueCore ⟨segmentId, effect, p⟩ now s).2.queue =
      (enqueueCore ⟨segmentId, effect, p'⟩ now s).2.queue) := by
  have htail : ∀ pr : JobPriority,
      (enqueueCore ⟨segmentId, effect, pr⟩ now s).2.queue =
        s.queue ++ [s.history.length] := by
    intro pr
    show s.queue ++ [(s.history.map (cancelJob segmentId)).length] =
      s.queue ++ [s.history.length]
    rw [List.length_map]
  exact ⟨htail p, (htail p).trans (htail p').symm⟩

/-- C5: the effect-duration policy is total on the closed effect type — every
effect kind is present in the table, so no undefined lookup can arise and the
rejection branch for an absent kind is vacuous — and every `enqueue` call
succeeds, returning a `pending` record. -/
theorem claim_C5_policy_total_and_enqueue_succeeds :
    (∀ e : EffectType, (estimateRenderTime e).isSome = true) ∧
    (∀ (params : CreateJobParams) (now : Nat) (s : VideoRenderQueue),
      (enqueue params now s).1.status = .pending) := by
  constructor
  · intro e; cases e <;> rfl
  · intro params now s; rfl

/-- C6: `getStats()` reports as `averageRenderTimeMs` the rounded arithmetic
mean of `durationMs` over the `done` jobs (rounding half up, `Math.round`),
and 0 when no job is done: the collected durations are exactly those of the
`done` history records, one per done job. -/
theorem claim_C6_average_render_time (s : VideoRenderQueue)
    (hs : Reachable s) :
    ((doneDurations s.history).length = countStatus .done s.history) ∧
    (doneDurations s.history =
      (s.history.filter (fun j => j.status = .done)).filterMap
        (fun j => j.durationMs)) ∧
    ((getStats s).1.averageRenderTimeMs =
      if countStatus .done s.history = 0 then 0
      else jsRound (doneDurations s.history).sum
        (countStatus .done s.history)) := by
  have hlen : (doneDurations s.history).length = countStatus .done s.history :=
    length_doneDurations (inv_of_reachable hs).1
  refine ⟨hlen, doneDurations_eq_filter s.history, ?_⟩
  show (if (doneDurations s.history).length > 0
    then jsRound (doneDurations s.history).sum (doneDurations s.history).length
    else 0) = _
  rw [hlen]
  by_cases h0 : countStatus .done s.history = 0
  · simp [h0]
  · simp [h0, Nat.pos_of_ne_zero h0]

theorem claim_C6_witness :
    Reachable (run [.submit ⟨"a", .trim, .normal⟩ 0, .wakeUp 100,
                    .submit ⟨"b", .blur, .normal⟩ 1, .wakeUp 301]) ∧
    ((getStats (run [.submit ⟨"a", .trim, .normal⟩ 0, .wakeUp 100,
                     .submit ⟨"b", .blur, .normal⟩ 1,
                     .wakeUp 301])).1.averageRenderTimeMs =
      if countStatus .done
          (run [.submit ⟨"a", .trim, .normal⟩ 0, .wakeUp 100,
                .submit ⟨"b", .blur, .normal⟩ 1, .wakeUp 301]).history = 0
      then 0
      else jsRound
        (doneDurations
          (run [.submit ⟨"a", .trim, .normal⟩ 0, .wakeUp 100,
                .submit ⟨"b", .blur, .normal⟩ 1, .wakeUp 301]).history).sum
        (countStatus .done
          (run [.submit ⟨"a", .trim, .normal⟩ 0, .wakeUp 100,
                .submit ⟨"b", .blur, .normal⟩ 1, .wakeUp 301]).history)) ∧
    ((getStats (run [.submit ⟨"a", .trim, .normal⟩ 0, .wakeUp 100,
                     .submit ⟨"b", .blur, .normal⟩ 1,
                     .wakeUp 301])).1.averageRenderTimeMs = 201) :=
  ⟨⟨[.submit ⟨"a", .trim, .normal⟩ 0, .wakeUp 100,
     .submit ⟨"b", .blur, .normal⟩ 1, .wakeUp 301], rfl⟩,
   (claim_C6_average_render_time _
     ⟨[.submit ⟨"a", .trim, .normal⟩ 0, .wakeUp 100,
       .submit ⟨"b", .blur, .normal⟩ 1, .wakeUp 301], rfl⟩).2.2,
   by decide⟩

/-- C7: the four status counts of `getStats()` partition the history exactly
— their sum is the number of records ever created — and `getStats` leaves the
scheduler state unchanged. -/
theorem claim_C7_stats_partition (s : VideoRenderQueue) :
    ((getStats s).1.pending + (getStats s).1.processing +
      (getStats s).1.done + (getStats s).1.cancelled = s.history.length) ∧
    ((getStats s).2 = s) :=
  ⟨countStatus_partition s.history, rfl⟩

/-- C8: in every reachable state, a history record carries a `durationMs`
exactly when its status is `done`. -/
theorem claim_C8_duration_iff_done (s : VideoRenderQueue)
    (hs : Reachable s) :
    ∀ j ∈ s.history, ((j.durationMs ≠ none) ↔ j.status = .done) :=
  (inv_of_reachable hs).1

theorem claim_C8_witness :
    Reachable (run [.submit ⟨"a", .trim, .normal⟩ 0,
                    .submit ⟨"a", .blur, .low⟩ 1, .wakeUp 42]) ∧
    (run [.submit ⟨"a", .trim, .normal⟩ 0,
          .submit ⟨"a", .blur, .low⟩ 1, .wakeUp 42]).history.length = 2 ∧
    ∀ j ∈ (run [.submit ⟨"a", .trim, .normal⟩ 0,
                .submit ⟨"a", .blur, .low⟩ 1, .wakeUp 42]).history,
      ((j.durationMs ≠ none) ↔ j.status = .done) :=
  ⟨⟨[.submit ⟨"a", .trim, .normal⟩ 0,
     .submit ⟨"a", .blur, .low⟩ 1, .wakeUp 42], rfl⟩,
   by decide,
   claim_C8_duration_iff_done _
     ⟨[.submit ⟨"a", .trim, .normal⟩ 0,
       .submit ⟨"a", .blur, .low⟩ 1, .wakeUp 42], rfl⟩⟩

/-- C9: `cancelPendingForSegment` is idempotent — calling it twice yields
exactly the state of calling it once — and when no pending job for the
segment exists the call leaves every observable component (queue, history,
worker flag, id counter, active render) unchanged; only the write-only
`cancelledSegments` set may grow. -/
theorem claim_C9_cancel_idempotent_noop (segmentId : String)
    (s : VideoRenderQueue) :
    (cancelPendingForSegment segmentId
        (cancelPendingForSegment segmentId s) =
      cancelPendingForSegment segmentId s) ∧
    ((∀ j ∈ s.history, ¬(j.segmentId = segmentId ∧ j.status = .pending)) →
      eraseSet (cancelPendingForSegment segmentId s) = eraseSet s) := by
  constructor
  · unfold cancelPendingForSegment
    congr 1
    · -- flipping is idempotent
      rw [List.map_map]
      exact List.map_eq_map_iff.mpr (fun j _ => cancelJob_idem segmentId j)
    · -- the Set already contains the segment after the first call
      by_cases hm : segmentId ∈ s.cancelledSegments
      · simp [hm]
      · simp [hm]
  · intro hnp
    show ({ queue := s.queue, history := s.history.map (cancelJob segmentId),
            isProcessing := s.isProcessing, jobCounter := s.jobCounter,
            activeJob := s.activeJob } : VideoRenderQueueNoSet) = _
    have : s.history.map (cancelJob segmentId) = s.history := by
      conv_rhs => rw [← List.map_id s.history]
      exact List.map_eq_map_iff.mpr
        (fun j hj => cancelJob_of_not_match (hnp j hj))
    rw [this]
    rfl

theorem claim_C9_witness :
    (cancelPendingForSegment "x"
        (cancelPendingForSegment "x" (run [.submit ⟨"a", .trim, .normal⟩ 0])) =
      cancelPendingForSegment "x" (run [.submit ⟨"a", .trim, .normal⟩ 0])) ∧
    (eraseSet (cancelPendingForSegment "x"
        (run [.submit ⟨"a", .trim, .normal⟩ 0])) =
      eraseSet (run [.submit ⟨"a", .trim, .normal⟩ 0])) :=
  ⟨(claim_C9_cancel_idempotent_noop "x"
      (run [.submit ⟨"a", .trim, .normal⟩ 0])).1,
   (claim_C9_cancel_idempotent_noop "x"
      (run [.submit ⟨"a", .trim, .normal⟩ 0])).2 (by decide)⟩

/-- C10: the `cancelledSegments` set is write-only: the scheduler with the
set deleted (and every other line kept) is observationally equivalent — after
any event sequence it has the same queue, history (hence job statuses),
flags and counter, returns the same record from `enqueue`, reacts identically
to a direct `cancelPendingForSegment` call, and reports the same statistics.
Cancellation is decided solely by the status fields in `history`. -/
theorem claim_C10_cancelledSegments_write_only
    (es : List Event) :
    (eraseSet (run es) = VideoRenderQueueNoSet.run es) ∧
    ((getStats (run es)).1 =
      (VideoRenderQueueNoSet.getStats (VideoRenderQueueNoSet.run es)).1) ∧
    (∀ (params : CreateJobParams) (now : Nat),
      (enqueue params now (run es)).1 =
        (VideoRenderQueueNoSet.enqueue params now
          (VideoRenderQueueNoSet.run es)).1) ∧
    (∀ segmentId : String,
      eraseSet (cancelPendingForSegment segmentId (run es)) =
        VideoRenderQueueNoSet.cancelPendingForSegment segmentId
          (VideoRenderQueueNoSet.run es)) := by
  refine ⟨eraseSet_run es, ?_, ?_, ?_⟩
  · rw [← eraseSet_run es]; rfl
  · intro params now; rw [← eraseSet_run es]; rfl
  · intro segmentId; rw [← eraseSet_run es]; rfl
